import Mathlib

/-!
Verification development for the beQuiet monster-kill tracker
(`monstercount_tracker.py`, `members_sync.py`).

Python strings are modelled as `List Char` (`Str`), Python ints as `Nat`
(all counts in the program are non-negative and Python ints are unbounded),
Python dicts as insertion-ordered association lists, and the `datetime`
library as explicit proleptic-Gregorian calendar arithmetic following the
CPython implementation.  Fallible steps (the Discord post, which raises on
an HTTP error) are modelled with an explicit success flag and `Except`.
-/

deriving instance DecidableEq for Except

namespace Tracker

abbrev Str := List Char

def lowerStr (s : Str) : Str := s.map Char.toLower

/-- The newline character, used by the message composition and splitting. -/
def nlc : Char := '\n'

/-! ### Decimal rendering of naturals (Python `str(n)` and `f"{n:02d}"`). -/

/-- Digit-peeling loop.  The first argument is fuel (structural recursion so
the kernel can evaluate it); `fuel = n` always suffices since the number of
decimal digits of `n` is at most `n` for `n ≥ 1`. -/
def natToCharsCore : Nat → Nat → Str → Str
  | 0, _, acc => acc
  | _ + 1, 0, acc => acc
  | fuel + 1, n + 1, acc =>
    natToCharsCore fuel ((n + 1) / 10) (Char.ofNat (48 + (n + 1) % 10) :: acc)

def natToChars (n : Nat) : Str := if n = 0 then ['0'] else natToCharsCore n n []

/-- Python `f"{n:02d}"`: zero-pad to width 2. -/
def pad2 (n : Nat) : Str := if n < 10 then '0' :: natToChars n else natToChars n

/-- Zero-pad to width 4 (the year in `date.isoformat()`). -/
def pad4 (n : Nat) : Str :=
  if n < 10 then '0' :: '0' :: '0' :: natToChars n
  else if n < 100 then '0' :: '0' :: natToChars n
  else if n < 1000 then '0' :: natToChars n
  else natToChars n

/-! ### Calendar (the parts of Python `datetime` the tracker uses). -/

def isLeap (y : Nat) : Bool := decide ((y % 4 = 0 ∧ y % 100 ≠ 0) ∨ y % 400 = 0)

def daysInMonth (y m : Nat) : Nat :=
  if m = 2 then (if isLeap y then 29 else 28)
  else if m = 4 ∨ m = 6 ∨ m = 9 ∨ m = 11 then 30
  else 31

def daysBeforeMonth (y : Nat) : Nat → Nat
  | 0 => 0
  | 1 => 0
  | m + 1 => daysBeforeMonth y m + daysInMonth y m

/-- Python `date.toordinal()`: day 1 is 0001-01-01 (a Monday). -/
def toOrdinal (y m d : Nat) : Nat :=
  let n := y - 1
  365 * n + n / 4 - n / 100 + n / 400 + daysBeforeMonth y m + d

/-- Python `date.isoweekday()`: Monday = 1 … Sunday = 7. -/
def isoweekday (y m d : Nat) : Nat := (toOrdinal y m d + 6) % 7 + 1

/-- CPython `_isoweek1monday`: ordinal of the Monday starting ISO week 1. -/
def isoweek1monday (y : Nat) : Int :=
  let firstday : Int := (toOrdinal y 1 1 : Nat)
  let firstweekday : Int := (firstday + 6) % 7
  let w1m := firstday - firstweekday
  if firstweekday > 3 then w1m + 7 else w1m

/-- CPython `date.isocalendar()` restricted to (ISO year, ISO week). -/
def isocalendarYW (y m d : Nat) : Nat × Nat :=
  let today : Int := (toOrdinal y m d : Nat)
  let week : Int := (today - isoweek1monday y).ediv 7
  if week < 0 then
    (y - 1, ((today - isoweek1monday (y - 1)).ediv 7 + 1).toNat)
  else if week ≥ 52 then
    if today ≥ isoweek1monday (y + 1) then (y + 1, 1)
    else (y, (week + 1).toNat)
  else (y, (week + 1).toNat)

/-- A Berlin-local timestamp, to the minute (all the tracker inspects). -/
structure DT where
  year : Nat
  month : Nat
  day : Nat
  hour : Nat
  minute : Nat
deriving DecidableEq

/-- Python `timedelta(days=1)` on the date part of a valid timestamp. -/
def nextDayTriple (y m d : Nat) : Nat × Nat × Nat :=
  if d < daysInMonth y m then (y, m, d + 1)
  else if m < 12 then (y, m + 1, 1)
  else (y + 1, 1, 1)

def nextDT (t : DT) : DT :=
  let r := nextDayTriple t.year t.month t.day
  ⟨r.1, r.2.1, r.2.2, t.hour, t.minute⟩

/-- Source `end_of_month`: `(dt + timedelta(days=1)).day == 1`. -/
def end_of_month (t : DT) : Bool := decide ((nextDT t).day = 1)

/-- Source `is_in_window`: `dt.hour == 23 and start_m <= dt.minute <= end_m`. -/
def is_in_window (t : DT) (startM endM : Nat) : Bool :=
  decide (t.hour = 23 ∧ startM ≤ t.minute ∧ t.minute ≤ endM)

/-- Source `iso_year_week`: `f"{y}-W{w:02d}"` from `dt.isocalendar()`. -/
def iso_year_week (t : DT) : Str :=
  let yw := isocalendarYW t.year t.month t.day
  natToChars yw.1 ++ '-' :: 'W' :: pad2 yw.2

/-- Source `year_month`: `f"{dt.year}-{dt.month:02d}"`. -/
def year_month (t : DT) : Str := natToChars t.year ++ '-' :: pad2 t.month

/-- Source `now_local.date().isoformat()` (the daily key). -/
def dateIso (t : DT) : Str := pad4 t.year ++ '-' :: pad2 t.month ++ '-' :: pad2 t.day

/-! ### `only_digits` (source lines 66–68): `re.findall(r"\d+", text)`,
joined and parsed, `0` when no digit occurs.  `\d` is modelled as
`Char.isDigit` (the scraped tables are ASCII). -/

/-- Maximal digit runs of a string, in order (`re.findall(r"\d+", ·)`).
`acc` is the reversed digit run currently being read. -/
def digitRunsAux : Str → Str → List Str
  | acc, [] => if acc = [] then [] else [acc.reverse]
  | acc, c :: cs =>
    if c.isDigit then digitRunsAux (c :: acc) cs
    else (if acc = [] then [] else [acc.reverse]) ++ digitRunsAux [] cs

def findallDigits (s : Str) : List Str := digitRunsAux [] s

/-- Python `int(ds)` for a digit string (the value of the concatenated digits). -/
def natOfDigits (ds : Str) : Nat := ds.foldl (fun n c => 10 * n + (c.toNat - 48)) 0

/-- Source `only_digits`: `int("".join(nums)) if nums else 0`. -/
def only_digits (s : Str) : Nat :=
  let nums := findallDigits s
  if nums = [] then 0 else natOfDigits nums.flatten

/-! ### Kill maps (Python dicts `name -> count`, insertion ordered). -/

abbrev KillMap := List (Str × Nat)

/-- Python `d[name] = d.get(name, 0) + kills`: update in place, append when new. -/
def kmAdd : KillMap → Str → Nat → KillMap
  | [], k, v => [(k, v)]
  | (k', v') :: rest, k, v =>
    if k' = k then (k', v' + v) :: rest else (k', v') :: kmAdd rest k v

def kmAddAll (m : KillMap) (obs : KillMap) : KillMap :=
  obs.foldl (fun acc p => kmAdd acc p.1 p.2) m

/-- Python `d.get(k, 0)`. -/
def kmGet : KillMap → Str → Nat
  | [], _ => 0
  | (k', v) :: rest, k => if k' = k then v else kmGet rest k

/-- Total count contributed for one name by an observation list. -/
def sumFor : KillMap → Str → Nat
  | [], _ => 0
  | p :: rest, q => (if p.1 = q then p.2 else 0) + sumFor rest q

/-! ### Persisted state (`state_monstercount.json`). -/

/-- The persisted document: `last_daily_date` plus one `(periodKey, kills)`
bucket each for weekly / monthly / yearly. -/
structure TrackerState where
  last_daily_date : Str
  weekly : Str × KillMap
  monthly : Str × KillMap
  yearly : Str × KillMap
deriving DecidableEq

/-- The fallback document built by `load_state` (source lines 90–95). -/
def emptyState : TrackerState := ⟨[], ([], []), ([], []), ([], [])⟩

/-- Source `load_state`.  File I/O and JSON parsing are external; the input
models their outcome: `none` = file absent, `some none` = present but
unreadable or unparseable (the caught exception), `some (some d)` = the
parsed document.  The source returns the parsed document unchanged and
falls back to the fixed empty document otherwise. -/
def load_state : Option (Option TrackerState) → TrackerState
  | some (some d) => d
  | _ => emptyState

/-- Source `aggregate_into`: for each of the weekly / monthly / yearly
buckets, reset the bucket when its stored key differs from the key computed
from `dt`, then add every observation into it. -/
def aggregate_into (st : TrackerState) (joined : KillMap) (t : DT) : TrackerState :=
  let iw := iso_year_week t
  let wk := kmAddAll (if st.weekly.1 = iw then st.weekly.2 else []) joined
  let ym := year_month t
  let mo := kmAddAll (if st.monthly.1 = ym then st.monthly.2 else []) joined
  let yk := natToChars t.year
  let yr := kmAddAll (if st.yearly.1 = yk then st.yearly.2 else []) joined
  { st with weekly := (iw, wk), monthly := (ym, mo), yearly := (yk, yr) }

/-! ### Stable sorting.  Python `list.sort` / `sorted` are stable; a stable
insertion sort is the extensional model: an element is inserted before the
first already-placed element it may precede, so equal keys keep their
original relative order. -/

def insertOrd (le : α → α → Bool) (x : α) : List α → List α
  | [] => [x]
  | y :: ys => if le x y then x :: y :: ys else y :: insertOrd le x ys

def insSort (le : α → α → Bool) : List α → List α
  | [] => []
  | x :: xs => insertOrd le x (insSort le xs)

/-- Source `xs.sort(key=lambda x: x[1], reverse=True)` (lines 348, 372):
stable sort by count descending.  No name tie-break. -/
def sortDesc (l : KillMap) : KillMap := insSort (fun a b => decide (b.2 ≤ a.2)) l

/-- Python string `<=` (code-point lexicographic). -/
def lexLe : Str → Str → Bool
  | [], _ => true
  | _ :: _, [] => false
  | a :: as', b :: bs =>
    if a.toNat < b.toNat then true
    else if b.toNat < a.toNat then false
    else lexLe as' bs

/-- Python `sorted(names, key=lambda x: x.lower())`: stable, case-insensitive. -/
def sortByLower (l : List Str) : List Str :=
  insSort (fun a b => lexLe (lowerStr a) (lowerStr b)) l

/-! ### Report renderer (`format_ranking`, source lines 263–288). -/

def MAX_LINES : Nat := 40
def DISCORD_SAFE_LIMIT : Nat := 1900

def headerOf (title : Str) : Str :=
  "**Netherworld ".toList ++ title ++ " (beQuiet)**".toList

def KEINE : Str := "Keine Kills gefunden".toList

/-- Composition `f"{header}\n{spruch}\n\n{body}"`. -/
def compose (header spruch body : Str) : Str :=
  header ++ nlc :: spruch ++ nlc :: nlc :: body

/-- One ranked line, `f"{i}. **{name}** {verb} **{kills}** mobs"` with the
verb alternating by rank parity. -/
def rankLine (i : Nat) (name : Str) (kills : Nat) : Str :=
  natToChars i ++ ". **".toList ++ name ++ "** ".toList ++
    (if i % 2 = 1 then "hunted".toList else "killed".toList) ++
    " **".toList ++ natToChars kills ++ "** mobs".toList

def mkLinesAux : Nat → KillMap → List Str
  | _, [] => []
  | i, (n, k) :: es => rankLine i n k :: mkLinesAux (i + 1) es

/-- Source `enumerate(entries[:MAX_LINES], start=1)` rendered to lines. -/
def mkLines (entries : KillMap) : List Str := mkLinesAux 1 (entries.take MAX_LINES)

/-- Python `"\n".join(lines)`. -/
def joinNl : List Str → Str
  | [] => []
  | s :: ss => if ss.isEmpty then s else s ++ nlc :: joinNl ss

/-- Python `msg.split("\n")` (keeps empty pieces, `"" → [""]`). -/
def splitNl : Str → List Str
  | [] => [[]]
  | c :: cs =>
    match splitNl cs with
    | [] => []
    | p :: ps => if c = nlc then [] :: p :: ps else (c :: p) :: ps

/-- Python `"\n\n" in msg`. -/
def hasNlNl : Str → Bool
  | c1 :: c2 :: rest => (decide (c1 = nlc) && decide (c2 = nlc)) || hasNlNl (c2 :: rest)
  | _ => false

/-- Source `"\n".join(body_lines[:mid]) if mid > 0 else "Keine Kills gefunden"`. -/
def candBody (bls : List Str) (mid : Nat) : Str :=
  if mid = 0 then KEINE else joinNl (bls.take mid)

/-- The `while low <= high` binary search of `format_ranking`, with
`hi1 = high + 1` so that `high = -1` is representable in `Nat`, and a fuel
argument making the recursion structural (so the kernel can evaluate it);
each iteration shrinks `hi1 - low`, so any `fuel ≥ hi1 - low` is exact. -/
def bsLoop (f : Nat → Str) (fits : Nat → Bool) : Nat → Nat → Nat → Str → Str
  | 0, _, _, best => best
  | fuel + 1, low, hi1, best =>
    if low < hi1 then
      let mid := (low + hi1 - 1) / 2
      if fits mid then bsLoop f fits fuel (mid + 1) hi1 (f mid)
      else bsLoop f fits fuel low mid best
    else best

/-- Whether the message composed from a candidate body prefix fits. -/
def frFits (header spruch : Str) (bls : List Str) (mid : Nat) : Bool :=
  decide ((compose header spruch (candBody bls mid)).length ≤ DISCORD_SAFE_LIMIT)

/-- The fully composed message of `format_ranking` before the length
check. -/
def format_full (title : Str) (entries : KillMap) (spruch : Str) : Str :=
  if entries = [] then compose (headerOf title) spruch KEINE
  else compose (headerOf title) spruch (joinNl (mkLines entries))

/-- The truncation path of `format_ranking`:
`body_lines = msg.split("\n")[2:] if "\n\n" in msg else msg.split("\n")`,
then the binary search over body-line prefixes. -/
def format_trunc (header spruch msg : Str) : Str :=
  let bls := if hasNlNl msg then (splitNl msg).drop 2 else splitNl msg
  compose header spruch
    (bsLoop (candBody bls) (frFits header spruch bls)
      (bls.length + 2) 0 (bls.length + 1) KEINE)

/-- Source `format_ranking`. -/
def format_ranking (title : Str) (entries : KillMap) (spruch : Str) : Str :=
  let msg := format_full title entries spruch
  if msg.length ≤ DISCORD_SAFE_LIMIT then msg
  else format_trunc (headerOf title) spruch msg

/-! ### Scheduler driver runs.

`post_discord` raises on an HTTP failure; a raised exception aborts the
whole tick (the state dict is discarded unsaved).  The webhook outcome is
`notifyOk`; `.error ()` means the tick died with the exception.  Lock files
(`try_lock`) live on disk and are never deleted, so they thread through as
an explicit list; they are created even when the tick later fails. -/

def DAILY_START_MIN : Nat := 40
def DAILY_END_MIN : Nat := 55
def WEEKLY_START_MIN : Nat := 30
def WEEKLY_END_MIN : Nat := 50

/-- Lock file name `f"{prefix}_{key}.lock"` for the daily run. -/
def dailyLockName (today : Str) : Str := "daily_".toList ++ today ++ ".lock".toList

/-- The guild-filtered, count-sorted observations of one daily tick:
`[(n, k) for (n, k) in all_counts if n.lower() in bequiet_all and k > 0]`
followed by the stable count-descending sort. -/
def joinedCounts (rankingNames : List Str) (members : List (Str × Str))
    (allCounts : KillMap) : KillMap :=
  let bequiet_all := members.map Prod.fst ++ rankingNames.map lowerStr
  sortDesc (allCounts.filter
    (fun p => decide (lowerStr p.1 ∈ bequiet_all) && decide (0 < p.2)))

/-- Source `run_daily`.  External fetches are parameters:
`rankingNames` = `load_bequiet_names_from_ranking()` (already lowercased by
that parser), `members` = the roster map `lower -> canonical`,
`allCounts` = `load_monstercount()`, `spruch` = `pick_spruch()`.
Returns the lock directory after the run and either `.error ()` (the tick
raised; nothing was saved) or `.ok (state', posts)`. -/
def run_daily (st : TrackerState) (locks : List Str) (now : DT)
    (rankingNames : List Str) (members : List (Str × Str))
    (allCounts : KillMap) (spruch : Str) (notifyOk : Bool) :
    List Str × Except Unit (TrackerState × List Str) :=
  let today := dateIso now
  if is_in_window now DAILY_START_MIN DAILY_END_MIN then
    if dailyLockName today ∈ locks then (locks, .ok (st, []))
    else
      let locks' := locks ++ [dailyLockName today]
      if st.last_daily_date = today then (locks', .ok (st, []))
      else
        let joined := joinedCounts rankingNames members allCounts
        let msg := format_ranking "Daily Monstercount".toList joined spruch
        if notifyOk then
          let st' := aggregate_into st joined now
          (locks', .ok ({ st' with last_daily_date := today }, [msg]))
        else (locks', .error ())
  else (locks, .ok (st, []))

/-- Source `run_weekly`: posts whenever it is Sunday inside the window —
there is no lock and no last-posted marker — then resets the weekly bucket
to next week's key. -/
def run_weekly (st : TrackerState) (now : DT) (spruch : Str) (notifyOk : Bool) :
    Except Unit (TrackerState × List Str) :=
  if isoweekday now.year now.month now.day = 7 then
    if is_in_window now WEEKLY_START_MIN WEEKLY_END_MIN then
      let ranking := sortDesc st.weekly.2
      let msg := format_ranking
        ("🗓️ Weekly Monstercount ".toList ++ st.weekly.1) ranking spruch
      if notifyOk then
        .ok ({ st with weekly := (iso_year_week (nextDT now), []) }, [msg])
      else .error ()
    else .ok (st, [])
  else .ok (st, [])

/-- The posts a run result carries (none when the tick raised). -/
def postsOf : Except Unit (TrackerState × List Str) → List Str
  | .ok (_, p) => p
  | .error _ => []

/-- The state a run result carries (the caller's old state survives a
raised tick, so `emptyState` stands in only for inspection of `.error`). -/
def stateOf : Except Unit (TrackerState × List Str) → TrackerState
  | .ok (s, _) => s
  | .error _ => emptyState

/-! ### Roster (`members_sync.py`). -/

/-- Source `add_missing`: walk the fetched names; a name whose lowercase
key is absent is inserted (`current[key] = n`) and reported.  Returns the
updated map and the added names. -/
def add_missing : List (Str × Str) → List Str → List (Str × Str) × List Str
  | cur, [] => (cur, [])
  | cur, n :: ns =>
    if lowerStr n ∈ cur.map Prod.fst then add_missing cur ns
    else
      let r := add_missing (cur ++ [(lowerStr n, n)]) ns
      (r.1, n :: r.2)

/-- Source `save_members` (`members_sync.py`): the lines of the written
file, `sorted(mem.values(), key=lambda x: x.lower())`, one name per line. -/
def save_members (mem : List (Str × Str)) : List Str :=
  sortByLower (mem.map Prod.snd)

/-- The roster-map invariant maintained by `load_members` / `add_missing`:
every key is the lowercase of its canonical name, and keys are unique. -/
def rosterInv (m : List (Str × Str)) : Prop :=
  (∀ e ∈ m, e.1 = lowerStr e.2) ∧ (m.map Prod.fst).Nodup

/-! ## Lemmas about the embedding -/

/-! ### Decimal rendering -/

theorem natToCharsCore_length :
    ∀ fuel n acc, acc.length ≤ (natToCharsCore fuel n acc).length := by
  intro fuel
  induction fuel with
  | zero => intro n acc; simp [natToCharsCore]
  | succ f ih =>
    intro n acc
    match n with
    | 0 => simp [natToCharsCore]
    | m + 1 =>
      rw [natToCharsCore]
      have h := ih ((m + 1) / 10) (Char.ofNat (48 + (m + 1) % 10) :: acc)
      simp at h
      omega

theorem natToChars_ne_nil (n : Nat) : natToChars n ≠ [] := by
  unfold natToChars
  split
  · simp
  · next h =>
    match n, h with
    | m + 1, _ =>
      rw [natToCharsCore]
      intro hc
      have := natToCharsCore_length m ((m + 1) / 10)
        (Char.ofNat (48 + (m + 1) % 10) :: [])
      rw [hc] at this
      simp at this

theorem natToCharsCore_mem : ∀ fuel n acc c, c ∈ natToCharsCore fuel n acc →
    c ∈ acc ∨ c.isDigit = true := by
  intro fuel
  induction fuel with
  | zero => intro n acc c hc; simp [natToCharsCore] at hc; exact Or.inl hc
  | succ f ih =>
    intro n acc c hc
    match n with
    | 0 => simp [natToCharsCore] at hc; exact Or.inl hc
    | m + 1 =>
      rw [natToCharsCore] at hc
      rcases ih ((m + 1) / 10) _ c hc with h | h
      · rcases List.mem_cons.mp h with h | h
        · subst h
          refine Or.inr ?_
          have hlt : (m + 1) % 10 < 10 := Nat.mod_lt _ (by omega)
          interval_cases h : (m + 1) % 10 <;> simp_all
        · exact Or.inl h
      · exact Or.inr h

theorem natToChars_digits (n : Nat) : ∀ c ∈ natToChars n, c.isDigit = true := by
  intro c hc
  unfold natToChars at hc
  split at hc
  · simp at hc; subst hc; rfl
  · rcases natToCharsCore_mem n n [] c hc with h | h
    · simp at h
    · exact h

theorem natToChars_noNl (n : Nat) : nlc ∉ natToChars n := by
  intro h
  have := natToChars_digits n nlc h
  simp [nlc, Char.isDigit] at this

/-! ### `only_digits` -/

theorem digitRunsAux_flatten : ∀ s acc,
    (digitRunsAux acc s).flatten = acc.reverse ++ s.filter Char.isDigit := by
  intro s
  induction s with
  | nil =>
    intro acc
    by_cases h : acc = [] <;> simp [digitRunsAux, h]
  | cons c cs ih =>
    intro acc
    rw [digitRunsAux]
    by_cases hd : c.isDigit
    · simp only [hd, if_true]
      rw [ih (c :: acc)]
      simp [hd]
    · simp only [hd]
      have hfil : (c :: cs).filter Char.isDigit = cs.filter Char.isDigit := by
        simp [List.filter, hd]
      by_cases h : acc = [] <;>
        simp [h, ih [], hfil, hd]

/-! ### Kill-map accumulation -/

theorem kmGet_kmAdd (m : KillMap) (k : Str) (v : Nat) (q : Str) :
    kmGet (kmAdd m k v) q = kmGet m q + (if k = q then v else 0) := by
  induction m with
  | nil => by_cases h : k = q <;> simp [kmAdd, kmGet, h]
  | cons p rest ih =>
    obtain ⟨k', v'⟩ := p
    by_cases h1 : k' = k
    · subst h1
      by_cases h2 : k' = q <;> simp [kmAdd, kmGet, h2]
    · by_cases h2 : k' = q
      · subst h2
        have : ¬ k = k' := fun h => h1 h.symm
        simp [kmAdd, kmGet, h1, this]
      · simp [kmAdd, kmGet, h1, h2, ih]

theorem kmGet_kmAddAll (obs : KillMap) : ∀ (m : KillMap) (q : Str),
    kmGet (kmAddAll m obs) q = kmGet m q + sumFor obs q := by
  induction obs with
  | nil => intro m q; simp [kmAddAll, sumFor]
  | cons p rest ih =>
    intro m q
    have : kmAddAll m (p :: rest) = kmAddAll (kmAdd m p.1 p.2) rest := rfl
    rw [this, ih, kmGet_kmAdd, sumFor]
    omega

/-! ### Stable insertion sort -/

theorem mem_insertOrd (le : α → α → Bool) (x : α) (l : List α) (a : α) :
    a ∈ insertOrd le x l ↔ a = x ∨ a ∈ l := by
  induction l with
  | nil => simp [insertOrd]
  | cons y ys ih =>
    rw [insertOrd]
    split
    · simp
    · simp [ih]; tauto

theorem perm_insertOrd (le : α → α → Bool) (x : α) (l : List α) :
    List.Perm (insertOrd le x l) (x :: l) := by
  induction l with
  | nil => simp [insertOrd]
  | cons y ys ih =>
    rw [insertOrd]
    split
    · exact List.Perm.refl _
    · exact ((ih.cons y).trans (List.Perm.swap x y ys))

theorem perm_insSort (le : α → α → Bool) (l : List α) :
    List.Perm (insSort le l) l := by
  induction l with
  | nil => simp [insSort]
  | cons x xs ih => exact (perm_insertOrd le x (insSort le xs)).trans (ih.cons x)

theorem pairwise_insertOrd (le : α → α → Bool)
    (htot : ∀ a b, le a b = false → le b a = true)
    (htrans : ∀ a b c, le a b = true → le b c = true → le a c = true)
    (x : α) (l : List α) (hl : l.Pairwise (fun a b => le a b = true)) :
    (insertOrd le x l).Pairwise (fun a b => le a b = true) := by
  induction l with
  | nil => simp [insertOrd]
  | cons y ys ih =>
    rw [insertOrd]
    rcases List.pairwise_cons.mp hl with ⟨hy, hys⟩
    split
    · next hxy =>
      refine List.pairwise_cons.mpr ⟨?_, hl⟩
      intro z hz
      rcases List.mem_cons.mp hz with h | h
      · subst h; exact hxy
      · exact htrans x y z hxy (hy z h)
    · next hxy =>
      refine List.pairwise_cons.mpr ⟨?_, ih hys⟩
      intro z hz
      rcases (mem_insertOrd le x ys z).mp hz with h | h
      · rw [h]; exact htot x y (Bool.eq_false_iff.mpr hxy)
      · exact hy z h

theorem pairwise_insSort (le : α → α → Bool)
    (htot : ∀ a b, le a b = false → le b a = true)
    (htrans : ∀ a b c, le a b = true → le b c = true → le a c = true)
    (l : List α) : (insSort le l).Pairwise (fun a b => le a b = true) := by
  induction l with
  | nil => simp [insSort]
  | cons x xs ih => exact pairwise_insertOrd le htot htrans x _ ih

theorem filter_insertOrd_pos (le : α → α → Bool) (p : α → Bool) (x : α)
    (hp : p x = true) (hskip : ∀ y, le x y = false → p y = false) :
    ∀ l : List α, (insertOrd le x l).filter p = x :: l.filter p := by
  intro l
  induction l with
  | nil => simp [insertOrd, hp]
  | cons y ys ih =>
    rw [insertOrd]
    split
    · simp [List.filter, hp]
    · next hxy =>
      have hy : p y = false := hskip y (Bool.eq_false_iff.mpr hxy)
      simp [List.filter, hy, ih]

theorem filter_insertOrd_neg (le : α → α → Bool) (p : α → Bool) (x : α)
    (hp : p x = false) :
    ∀ l : List α, (insertOrd le x l).filter p = l.filter p := by
  intro l
  induction l with
  | nil => simp [insertOrd, hp]
  | cons y ys ih =>
    rw [insertOrd]
    split
    · simp [List.filter, hp]
    · by_cases hy : p y = true <;> simp [List.filter, hy, ih]

/-- Stability of the ranking sort: the entries holding any fixed count
appear in the output exactly in their input order. -/
theorem sortDesc_stable (l : KillMap) (c : Nat) :
    (sortDesc l).filter (fun p => decide (p.2 = c)) =
      l.filter (fun p => decide (p.2 = c)) := by
  induction l with
  | nil => rfl
  | cons x xs ih =>
    show (insertOrd _ x (sortDesc xs)).filter _ = _
    by_cases hx : x.2 = c
    · rw [filter_insertOrd_pos _ _ x (by simp [hx]) ?_ (sortDesc xs)]
      · simp [List.filter, hx, ih]
      · intro y hy
        simp only [decide_eq_false_iff_not] at hy ⊢
        omega
    · rw [filter_insertOrd_neg _ _ x (by simp [hx]) (sortDesc xs)]
      simp [List.filter, hx, ih]

/-! ### Branch behaviour of the scheduler runs -/

theorem run_daily_closed (st : TrackerState) (locks : List Str) (now : DT)
    (rn : List Str) (mem : List (Str × Str)) (ac : KillMap) (sp : Str) (ok : Bool)
    (hw : ¬ is_in_window now DAILY_START_MIN DAILY_END_MIN = true) :
    run_daily st locks now rn mem ac sp ok = (locks, .ok (st, [])) := by
  simp only [run_daily]
  rw [if_neg hw]

theorem run_daily_locked (st : TrackerState) (locks : List Str) (now : DT)
    (rn : List Str) (mem : List (Str × Str)) (ac : KillMap) (sp : Str) (ok : Bool)
    (hl : dailyLockName (dateIso now) ∈ locks) :
    run_daily st locks now rn mem ac sp ok = (locks, .ok (st, [])) := by
  simp only [run_daily]
  by_cases hw : is_in_window now DAILY_START_MIN DAILY_END_MIN = true
  · rw [if_pos hw, if_pos hl]
  · rw [if_neg hw]

theorem run_daily_already (st : TrackerState) (locks : List Str) (now : DT)
    (rn : List Str) (mem : List (Str × Str)) (ac : KillMap) (sp : Str) (ok : Bool)
    (hw : is_in_window now DAILY_START_MIN DAILY_END_MIN = true)
    (hl : dailyLockName (dateIso now) ∉ locks)
    (hm : st.last_daily_date = dateIso now) :
    run_daily st locks now rn mem ac sp ok =
      (locks ++ [dailyLockName (dateIso now)], .ok (st, [])) := by
  simp only [run_daily]
  rw [if_pos hw, if_neg hl, if_pos hm]

theorem run_daily_open (st : TrackerState) (locks : List Str) (now : DT)
    (rn : List Str) (mem : List (Str × Str)) (ac : KillMap) (sp : Str) (ok : Bool)
    (hw : is_in_window now DAILY_START_MIN DAILY_END_MIN = true)
    (hl : dailyLockName (dateIso now) ∉ locks)
    (hm : ¬ st.last_daily_date = dateIso now) :
    run_daily st locks now rn mem ac sp ok =
      (locks ++ [dailyLockName (dateIso now)],
       if ok then
         .ok ({ aggregate_into st (joinedCounts rn mem ac) now with
                  last_daily_date := dateIso now },
              [format_ranking "Daily Monstercount".toList
                 (joinedCounts rn mem ac) sp])
       else .error ()) := by
  simp only [run_daily]
  rw [if_pos hw, if_neg hl, if_neg hm]
  cases ok <;> rfl

/-- A daily tick that carries posts must have created today's lock file. -/
theorem run_daily_lock_of_posts (st : TrackerState) (locks : List Str) (now : DT)
    (rn : List Str) (mem : List (Str × Str)) (ac : KillMap) (sp : Str) (ok : Bool)
    (h : postsOf (run_daily st locks now rn mem ac sp ok).2 ≠ []) :
    dailyLockName (dateIso now) ∈ (run_daily st locks now rn mem ac sp ok).1 := by
  by_cases hw : is_in_window now DAILY_START_MIN DAILY_END_MIN = true
  · by_cases hl : dailyLockName (dateIso now) ∈ locks
    · rw [run_daily_locked st locks now rn mem ac sp ok hl] at h ⊢
      simp [postsOf] at h
    · by_cases hm : st.last_daily_date = dateIso now
      · rw [run_daily_already st locks now rn mem ac sp ok hw hl hm] at h ⊢
        simp [postsOf] at h
      · rw [run_daily_open st locks now rn mem ac sp ok hw hl hm] at h ⊢
        simp
  · rw [run_daily_closed st locks now rn mem ac sp ok hw] at h ⊢
    simp [postsOf] at h

theorem run_weekly_closed (st : TrackerState) (now : DT) (sp : Str) (ok : Bool)
    (h : ¬ (isoweekday now.year now.month now.day = 7
        ∧ is_in_window now WEEKLY_START_MIN WEEKLY_END_MIN = true)) :
    run_weekly st now sp ok = .ok (st, []) := by
  simp only [run_weekly]
  by_cases h7 : isoweekday now.year now.month now.day = 7
  · rw [if_pos h7, if_neg (fun hw => h ⟨h7, hw⟩)]
  · rw [if_neg h7]

theorem run_weekly_open (st : TrackerState) (now : DT) (sp : Str) (ok : Bool)
    (h7 : isoweekday now.year now.month now.day = 7)
    (hw : is_in_window now WEEKLY_START_MIN WEEKLY_END_MIN = true) :
    run_weekly st now sp ok =
      if ok then
        .ok ({ st with weekly := (iso_year_week (nextDT now), []) },
             [format_ranking ("🗓️ Weekly Monstercount ".toList ++ st.weekly.1)
                (sortDesc st.weekly.2) sp])
      else .error () := by
  simp only [run_weekly]
  rw [if_pos h7, if_pos hw]

/-! ### Renderer lemmas -/

theorem len_compose (h s b : Str) :
    (compose h s b).length = h.length + s.length + 3 + b.length := by
  simp [compose]
  omega

theorem not_mem_app {c : Char} {a b : Str} (ha : c ∉ a) (hb : c ∉ b) :
    c ∉ a ++ b := by
  intro hc
  rcases List.mem_append.mp hc with h | h
  exacts [ha h, hb h]

theorem headerOf_noNl (title : Str) (h : nlc ∉ title) : nlc ∉ headerOf title :=
  not_mem_app (not_mem_app (by decide) h) (by decide)

theorem rankLine_noNl (i : Nat) (name : Str) (kk : Nat) (h : nlc ∉ name) :
    nlc ∉ rankLine i name kk := by
  unfold rankLine
  refine not_mem_app (not_mem_app (not_mem_app (not_mem_app (not_mem_app
    (not_mem_app (not_mem_app (natToChars_noNl i) (by decide)) h) (by decide))
    ?_) (by decide)) (natToChars_noNl kk)) (by decide)
  by_cases hi : i % 2 = 1 <;> simp [hi] <;> decide

theorem mkLinesAux_noNl : ∀ (es : KillMap) (i : Nat),
    (∀ e ∈ es, nlc ∉ e.1) → ∀ l ∈ mkLinesAux i es, nlc ∉ l := by
  intro es
  induction es with
  | nil => intro i _ l hl; simp [mkLinesAux] at hl
  | cons e es ih =>
    intro i hno l hl
    obtain ⟨nm, kk⟩ := e
    rw [mkLinesAux] at hl
    rcases List.mem_cons.mp hl with hl | hl
    · rw [hl]
      exact rankLine_noNl i nm kk (hno (nm, kk) (by simp))
    · exact ih (i + 1) (fun e he => hno e (List.mem_cons_of_mem _ he)) l hl

theorem mkLines_noNl (entries : KillMap) (h : ∀ e ∈ entries, nlc ∉ e.1) :
    ∀ l ∈ mkLines entries, nlc ∉ l :=
  mkLinesAux_noNl (entries.take MAX_LINES) 1
    (fun e he => h e (List.take_subset _ _ he))

theorem mkLines_ne_nil (entries : KillMap) (h : entries ≠ []) :
    mkLines entries ≠ [] := by
  unfold mkLines MAX_LINES
  cases entries with
  | nil => exact absurd rfl h
  | cons e es =>
    obtain ⟨nm, kk⟩ := e
    simp [mkLinesAux]

theorem splitNl_ne_nil : ∀ s : Str, splitNl s ≠ [] := by
  intro s
  induction s with
  | nil => simp [splitNl]
  | cons c cs ih =>
    rw [splitNl]
    cases h : splitNl cs with
    | nil => exact absurd h ih
    | cons p ps =>
      show ¬ (if c = nlc then [] :: p :: ps else (c :: p) :: ps) = []
      split <;> simp

theorem splitNl_append_nl : ∀ (a rest : Str), nlc ∉ a →
    splitNl (a ++ nlc :: rest) = a :: splitNl rest := by
  intro a
  induction a with
  | nil =>
    intro rest _
    show splitNl (nlc :: rest) = [] :: splitNl rest
    rw [splitNl]
    cases h : splitNl rest with
    | nil => exact absurd h (splitNl_ne_nil rest)
    | cons p ps => simp
  | cons c a' ih =>
    intro rest hnl
    have hc : ¬ c = nlc := fun h => hnl (h ▸ List.mem_cons_self c a')
    have hna : nlc ∉ a' := fun h => hnl (List.mem_cons_of_mem c h)
    show splitNl (c :: (a' ++ nlc :: rest)) = (c :: a') :: splitNl rest
    rw [splitNl, ih rest hna]
    simp [hc]

theorem splitNl_noNl : ∀ a : Str, nlc ∉ a → splitNl a = [a] := by
  intro a
  induction a with
  | nil => intro _; rfl
  | cons c a' ih =>
    intro hnl
    have hc : ¬ c = nlc := fun h => hnl (h ▸ List.mem_cons_self c a')
    have hna : nlc ∉ a' := fun h => hnl (List.mem_cons_of_mem c h)
    rw [splitNl, ih hna]
    simp [hc]

theorem joinNl_cons (x : Str) (xs : List Str) :
    joinNl (x :: xs) = if xs = [] then x else x ++ nlc :: joinNl xs := by
  rw [joinNl]
  cases xs <;> simp

theorem splitNl_joinNl : ∀ ls : List Str, ls ≠ [] → (∀ l ∈ ls, nlc ∉ l) →
    splitNl (joinNl ls) = ls := by
  intro ls
  induction ls with
  | nil => intro h _; exact absurd rfl h
  | cons x xs ih =>
    intro _ hno
    cases xs with
    | nil =>
      rw [joinNl_cons, if_pos rfl]
      exact splitNl_noNl x (hno x (by simp))
    | cons y ys =>
      rw [joinNl_cons, if_neg (by simp)]
      rw [splitNl_append_nl x _ (hno x (by simp))]
      rw [ih (by simp) (fun l hl => hno l (List.mem_cons_of_mem _ hl))]

theorem hasNlNl_append : ∀ (a b : Str), hasNlNl (a ++ nlc :: nlc :: b) = true := by
  intro a b
  induction a with
  | nil => simp [hasNlNl]
  | cons c a' ih =>
    cases a' with
    | nil => simp [hasNlNl]
    | cons d a'' =>
      show hasNlNl (c :: d :: (a'' ++ nlc :: nlc :: b)) = true
      rw [hasNlNl]
      have : (d :: (a'' ++ nlc :: nlc :: b)) = (d :: a'') ++ nlc :: nlc :: b := rfl
      rw [this, ih]
      simp

theorem joinNl_take_mono : ∀ (ls : List Str) (m : Nat),
    (joinNl (ls.take m)).length ≤ (joinNl (ls.take (m + 1))).length := by
  intro ls
  induction ls with
  | nil => intro m; simp
  | cons x xs ih =>
    intro m
    cases m with
    | zero =>
      show (joinNl []).length ≤ (joinNl [x]).length
      simp [joinNl]
    | succ k =>
      show (joinNl (x :: xs.take k)).length ≤ (joinNl (x :: xs.take (k + 1))).length
      rw [joinNl_cons, joinNl_cons]
      by_cases hk : xs.take k = []
      · rw [if_pos hk]
        by_cases hk1 : xs.take (k + 1) = []
        · rw [if_pos hk1]
        · rw [if_neg hk1]; simp
      · have hk1 : xs.take (k + 1) ≠ [] := by
          intro hc
          apply hk
          cases xs with
          | nil => simp
          | cons w ws => simp at hc
        rw [if_neg hk, if_neg hk1]
        simp only [List.length_append, List.length_cons]
        have := ih k
        omega

theorem bsLoop_stop (f : Nat → Str) (fits : Nat → Bool) (fuel low hi1 : Nat)
    (best : Str) (h : ¬ low < hi1) :
    bsLoop f fits (fuel + 1) low hi1 best = best := by
  rw [bsLoop, if_neg h]

theorem bsLoop_step_false (f : Nat → Str) (fits : Nat → Bool)
    (fuel low hi1 : Nat) (best : Str) (h : low < hi1)
    (hf : fits ((low + hi1 - 1) / 2) = false) :
    bsLoop f fits (fuel + 1) low hi1 best
      = bsLoop f fits fuel low ((low + hi1 - 1) / 2) best := by
  rw [bsLoop, if_pos h]
  show (if fits ((low + hi1 - 1) / 2) then
      bsLoop f fits fuel ((low + hi1 - 1) / 2 + 1) hi1 (f ((low + hi1 - 1) / 2))
    else bsLoop f fits fuel low ((low + hi1 - 1) / 2) best)
    = bsLoop f fits fuel low ((low + hi1 - 1) / 2) best
  rw [hf]
  simp

/-- Chain a one-step monotonicity fact (valid from 1 on) along `≤`. -/
theorem mono_chain (F : Nat → Nat) (hmono : ∀ m, 1 ≤ m → F m ≤ F (m + 1)) :
    ∀ j k, 1 ≤ j → j ≤ k → F j ≤ F k := by
  intro j k h1 hjk
  induction k, hjk using Nat.le_induction with
  | base => exact Nat.le_refl _
  | succ k hk ihk => exact ihk.trans (hmono k (by omega))

/-- Correctness of the truncation binary search: when the fitting indices
are downward closed up to a greatest fitting index `b`, the loop returns
the candidate at `b`, for any sufficient fuel. -/
theorem bsLoop_eq (f : Nat → Str) (fits : Nat → Bool) (b n : Nat)
    (hfit : ∀ m, m ≤ b → fits m = true)
    (hnot : ∀ m, b < m → m ≤ n → fits m = false) :
    ∀ (fuel low hi1 : Nat) (best : Str),
      hi1 - low ≤ fuel → low ≤ b + 1 → b + 1 ≤ hi1 → hi1 ≤ n + 1 →
      (low = b + 1 → best = f b) →
      bsLoop f fits fuel low hi1 best = f b := by
  intro fuel
  induction fuel with
  | zero =>
    intro low hi1 best hfuel h1 h2 h3 h4
    rw [bsLoop]
    exact h4 (by omega)
  | succ fl ih =>
    intro low hi1 best hfuel h1 h2 h3 h4
    rw [bsLoop]
    by_cases hlh : low < hi1
    · rw [if_pos hlh]
      show (if fits ((low + hi1 - 1) / 2) then
          bsLoop f fits fl ((low + hi1 - 1) / 2 + 1) hi1 (f ((low + hi1 - 1) / 2))
        else bsLoop f fits fl low ((low + hi1 - 1) / 2) best) = f b
      set mid := (low + hi1 - 1) / 2 with hmid
      have hmlow : low ≤ mid := by
        rw [hmid]
        exact (Nat.le_div_iff_mul_le (by omega)).mpr (by omega)
      have hmhi : mid < hi1 := by
        rw [hmid]
        exact (Nat.div_lt_iff_lt_mul (by omega)).mpr (by omega)
      by_cases hf : fits mid = true
      · rw [if_pos hf]
        have hmb : mid ≤ b := by
          by_contra hc
          rw [hnot mid (by omega) (by omega)] at hf
          exact Bool.false_ne_true hf
        exact ih (mid + 1) hi1 (f mid) (by omega) (by omega) h2 h3
          (fun h => by rw [show mid = b by omega])
      · rw [if_neg hf]
        have hbm : b < mid := by
          by_contra hc
          exact hf (hfit mid (by omega))
        exact ih low mid best (by omega) h1 (by omega) (by omega) h4
    · rw [if_neg hlh]
      exact h4 (by omega)

/-! ### Order lemmas for the roster sort -/

theorem lexLe_cons_iff (x y : Char) (xs ys : Str) :
    lexLe (x :: xs) (y :: ys) = true ↔
      x.toNat < y.toNat ∨ (x.toNat = y.toNat ∧ lexLe xs ys = true) := by
  rw [lexLe]
  by_cases h1 : x.toNat < y.toNat <;> by_cases h2 : y.toNat < x.toNat <;>
    simp [h1, h2] <;> omega

theorem lexLe_total : ∀ a b : Str, lexLe a b = false → lexLe b a = true := by
  intro a
  induction a with
  | nil => intro b h; simp [lexLe] at h
  | cons x xs ih =>
    intro b h
    cases b with
    | nil => rfl
    | cons y ys =>
      have h' : ¬ (x.toNat < y.toNat ∨ (x.toNat = y.toNat ∧ lexLe xs ys = true)) := by
        rw [← lexLe_cons_iff]
        simp [h]
      rw [lexLe_cons_iff]
      push_neg at h'
      rcases Nat.lt_trichotomy x.toNat y.toNat with hlt | heq | hgt
      · omega
      · exact Or.inr ⟨heq.symm, ih ys (Bool.eq_false_iff.mpr (h'.2 heq))⟩
      · exact Or.inl hgt

theorem lexLe_trans : ∀ a b c : Str,
    lexLe a b = true → lexLe b c = true → lexLe a c = true := by
  intro a
  induction a with
  | nil => intro b c _ _; rfl
  | cons x xs ih =>
    intro b c h1 h2
    cases b with
    | nil => simp [lexLe] at h1
    | cons y ys =>
      cases c with
      | nil => simp [lexLe] at h2
      | cons z zs =>
        rw [lexLe_cons_iff] at h1 h2 ⊢
        rcases h1 with h1 | ⟨h1e, h1r⟩
        · rcases h2 with h2 | ⟨h2e, _⟩
          · exact Or.inl (h1.trans h2)
          · exact Or.inl (h2e ▸ h1)
        · rcases h2 with h2 | ⟨h2e, h2r⟩
          · exact Or.inl (h1e ▸ h2)
          · exact Or.inr ⟨h1e.trans h2e, ih ys zs h1r h2r⟩

/-! ### `add_missing` lemmas -/

theorem add_missing_keeps : ∀ (ns : List Str) (cur : List (Str × Str))
    (e : Str × Str), e ∈ cur → e ∈ (add_missing cur ns).1 := by
  intro ns
  induction ns with
  | nil => intro cur e he; simpa [add_missing] using he
  | cons n ns ih =>
    intro cur e he
    rw [add_missing]
    split
    · exact ih cur e he
    · exact ih _ e (List.mem_append_left _ he)

theorem add_missing_snd : ∀ (ns : List Str) (cur : List (Str × Str)),
    (add_missing cur ns).1.map Prod.snd
      = cur.map Prod.snd ++ (add_missing cur ns).2 := by
  intro ns
  induction ns with
  | nil => intro cur; simp [add_missing]
  | cons n ns ih =>
    intro cur
    rw [add_missing]
    split
    · simpa using ih cur
    · have h := ih (cur ++ [(lowerStr n, n)])
      simp at h ⊢
      simp [h]

theorem add_missing_added : ∀ (ns : List Str) (cur : List (Str × Str))
    (n : Str), n ∈ (add_missing cur ns).2 →
      n ∈ ns ∧ lowerStr n ∉ cur.map Prod.fst := by
  intro ns
  induction ns with
  | nil => intro cur n h; simp [add_missing] at h
  | cons m ns ih =>
    intro cur n h
    rw [add_missing] at h
    split at h
    · have := ih cur n h
      exact ⟨List.mem_cons_of_mem m this.1, this.2⟩
    · next hguard =>
      simp only at h
      rcases List.mem_cons.mp h with h | h
      · subst h
        exact ⟨List.mem_cons_self _ _, hguard⟩
      · have := ih (cur ++ [(lowerStr m, m)]) n h
        refine ⟨List.mem_cons_of_mem m this.1, fun hc => this.2 ?_⟩
        simp only [List.map_append, List.mem_append]
        exact Or.inl hc

theorem add_missing_keys : ∀ (ns : List Str) (cur : List (Str × Str)) (k : Str),
    k ∈ (add_missing cur ns).1.map Prod.fst ↔
      k ∈ cur.map Prod.fst ∨ k ∈ ns.map lowerStr := by
  intro ns
  induction ns with
  | nil => intro cur k; simp [add_missing]
  | cons n ns ih =>
    intro cur k
    rw [add_missing]
    split
    · next hguard =>
      rw [ih cur k]
      simp only [List.map_cons, List.mem_cons]
      constructor
      · rintro (h | h)
        · exact Or.inl h
        · exact Or.inr (Or.inr h)
      · rintro (h | h | h)
        · exact Or.inl h
        · exact Or.inl (h ▸ hguard)
        · exact Or.inr h
    · have h := ih (cur ++ [(lowerStr n, n)]) k
      simp only [List.map_append, List.mem_append] at h
      simp only [h, List.map_cons, List.mem_cons]
      simp [List.mem_singleton]
      tauto

theorem add_missing_inv : ∀ (ns : List Str) (cur : List (Str × Str)),
    rosterInv cur → rosterInv (add_missing cur ns).1 := by
  intro ns
  induction ns with
  | nil => intro cur h; simpa [add_missing] using h
  | cons n ns ih =>
    intro cur h
    rw [add_missing]
    split
    · exact ih cur h
    · next hguard =>
      refine ih _ ⟨?_, ?_⟩
      · intro e he
        rcases List.mem_append.mp he with he | he
        · exact h.1 e he
        · simp at he
          simp [he]
      · rw [List.map_append, List.nodup_append]
        refine ⟨h.2, by simp, ?_⟩
        intro a ha hb
        simp at hb
        subst hb
        exact hguard ha

/-- Under the roster invariant the canonical names are pairwise distinct
up to case. -/
theorem roster_snd_pairwise (m : List (Str × Str)) (h : rosterInv m) :
    (m.map Prod.snd).Pairwise (fun a b => lowerStr a ≠ lowerStr b) := by
  have hmap : m.map Prod.fst = m.map (fun e => lowerStr e.2) :=
    List.map_congr_left h.1
  have hnd : (m.map (fun e => lowerStr e.2)).Nodup := hmap ▸ h.2
  have : (m.map (fun e => lowerStr e.2)) = (m.map Prod.snd).map lowerStr := by
    simp [List.map_map, Function.comp]
  rw [this] at hnd
  exact List.pairwise_map.mp hnd

/-! ## Claims -/

/-- C10: `only_digits` is total on every string and returns the natural
number formed by concatenating all maximal digit runs in order (which is
exactly the subsequence of digit characters); with no digit it returns 0
(`natOfDigits [] = 0`), and the thousands-separated `"1,234"` parses as
`1234`. -/
theorem c10_only_digits_spec :
    (∀ s : Str, only_digits s = natOfDigits (s.filter Char.isDigit))
    ∧ natOfDigits [] = 0
    ∧ only_digits "1,234".toList = 1234
    ∧ only_digits "no digits here!".toList = 0 := by
  refine ⟨?_, rfl, by decide, by decide⟩
  intro s
  have hf : (findallDigits s).flatten = s.filter Char.isDigit := by
    simpa using digitRunsAux_flatten s []
  simp only [only_digits]
  split
  · next h =>
    rw [← hf, h]
    rfl
  · rw [hf]

/-- C6: the last-day-of-month test `end_of_month` (now + 1 day rolls to
day 1) agrees with `day = daysInMonth` on every valid date — hence it is
correct across month lengths and leap years — and in particular it holds
on 2024-02-29 and 2023-02-28 and fails on 2024-02-28. -/
theorem c6_end_of_month_correct :
    (∀ t : DT, 1 ≤ t.month → t.month ≤ 12 → 1 ≤ t.day →
      t.day ≤ daysInMonth t.year t.month →
      (end_of_month t = true ↔ t.day = daysInMonth t.year t.month))
    ∧ end_of_month ⟨2024, 2, 29, 23, 30⟩ = true
    ∧ end_of_month ⟨2023, 2, 28, 23, 30⟩ = true
    ∧ end_of_month ⟨2024, 2, 28, 23, 30⟩ = false := by
  refine ⟨?_, by decide, by decide, by decide⟩
  intro t h1 h2 h3 h4
  unfold end_of_month nextDT nextDayTriple
  split
  · next h => simp; omega
  · next h => split <;> simp <;> omega

/-- Witness for C6 at a concrete valid date (2023-06-30). -/
theorem c6_witness :
    end_of_month ⟨2023, 6, 30, 23, 30⟩ = true ↔ 30 = daysInMonth 2023 6 :=
  c6_end_of_month_correct.1 ⟨2023, 6, 30, 23, 30⟩ (by decide) (by decide)
    (by decide) (by decide)

/-- C7: `aggregate_into` keys each bucket by the period key computed from
the timestamp; when the stored key differs the old contents are discarded
(rollover) before the additions; each observation adds its count to the
named entry, defaulting to 0, and additions never decrease an entry
(`base ≤ result`).  The claim's concrete example: a weekly bucket for
2024-W10 holding `{A: 5}` merged with `{A: 3}` on 2024-03-11 (a 2024-W11
date) yields `{periodKey: 2024-W11, accumulated: {A: 3}}`, not `{A: 8}`. -/
theorem c7_aggregate_rollover_add :
    (∀ st joined t,
      (aggregate_into st joined t).weekly.1 = iso_year_week t ∧
      (aggregate_into st joined t).monthly.1 = year_month t ∧
      (aggregate_into st joined t).yearly.1 = natToChars t.year ∧
      (∀ q, kmGet (aggregate_into st joined t).weekly.2 q =
        (if st.weekly.1 = iso_year_week t then kmGet st.weekly.2 q else 0)
          + sumFor joined q) ∧
      (∀ q, kmGet (aggregate_into st joined t).monthly.2 q =
        (if st.monthly.1 = year_month t then kmGet st.monthly.2 q else 0)
          + sumFor joined q) ∧
      (∀ q, kmGet (aggregate_into st joined t).yearly.2 q =
        (if st.yearly.1 = natToChars t.year then kmGet st.yearly.2 q else 0)
          + sumFor joined q) ∧
      (∀ q, (if st.weekly.1 = iso_year_week t then kmGet st.weekly.2 q else 0)
        ≤ kmGet (aggregate_into st joined t).weekly.2 q))
    ∧ (aggregate_into
        ⟨[], ("2024-W10".toList, [("A".toList, 5)]), ("2024-03".toList, []),
          ("2024".toList, [])⟩
        [("A".toList, 3)] ⟨2024, 3, 11, 12, 0⟩).weekly
      = ("2024-W11".toList, [("A".toList, 3)]) := by
  constructor
  · intro st joined t
    refine ⟨rfl, rfl, rfl, ?_, ?_, ?_, ?_⟩
    · intro q
      show kmGet (kmAddAll _ joined) q = _
      rw [kmGet_kmAddAll]
      by_cases h : st.weekly.1 = iso_year_week t <;> simp [h, kmGet]
    · intro q
      show kmGet (kmAddAll _ joined) q = _
      rw [kmGet_kmAddAll]
      by_cases h : st.monthly.1 = year_month t <;> simp [h, kmGet]
    · intro q
      show kmGet (kmAddAll _ joined) q = _
      rw [kmGet_kmAddAll]
      by_cases h : st.yearly.1 = natToChars t.year <;> simp [h, kmGet]
    · intro q
      show _ ≤ kmGet (kmAddAll _ joined) q
      rw [kmGet_kmAddAll]
      by_cases h : st.weekly.1 = iso_year_week t <;> simp [h, kmGet]
  · decide

/-- C4 counterexample: for the input supplied in order Bob(10), alice(10),
Zed(20) the ranking is NOT `Zed, alice, Bob` — the source sorts only by
count (stable), so the tie stays in supplied order: `Zed, Bob, alice`. -/
theorem c4_counterexample :
    sortDesc [("Bob".toList, 10), ("alice".toList, 10), ("Zed".toList, 20)] ≠
      [("Zed".toList, 20), ("alice".toList, 10), ("Bob".toList, 10)] := by
  decide

/-- C4 amended: the ranking sort is a permutation sorted by count
descending, and it is stable — entries with equal counts keep the order in
which they were supplied (there is no case-insensitive name tie-break, so
the order is not independent of the supplied order); on
`Bob(10), alice(10), Zed(20)` it returns `Zed(20), Bob(10), alice(10)`. -/
theorem c4_amended_stable_count_sort :
    (∀ l : KillMap,
      List.Perm (sortDesc l) l ∧
      (sortDesc l).Pairwise (fun a b => b.2 ≤ a.2) ∧
      (∀ c, (sortDesc l).filter (fun p => decide (p.2 = c)) =
        l.filter (fun p => decide (p.2 = c))))
    ∧ sortDesc [("Bob".toList, 10), ("alice".toList, 10), ("Zed".toList, 20)] =
        [("Zed".toList, 20), ("Bob".toList, 10), ("alice".toList, 10)] := by
  constructor
  · intro l
    refine ⟨perm_insSort _ l, ?_, fun c => sortDesc_stable l c⟩
    have h := pairwise_insSort (fun a b : Str × Nat => decide (b.2 ≤ a.2))
      (by intro a b h; simp at h ⊢; omega)
      (by intro a b c h1 h2; simp at h1 h2 ⊢; omega) l
    exact h.imp (by intro a b hab; simpa using hab)
  · decide

/-- C8: `load_state` returns the parsed document unchanged when the file
is present and parses, and the fixed empty initial state (empty buckets,
empty markers) when the file is absent or its contents cannot be parsed —
no error is propagated. -/
theorem c8_load_state_fallback :
    load_state none = emptyState
    ∧ load_state (some none) = emptyState
    ∧ (∀ d, load_state (some (some d)) = d)
    ∧ emptyState = ⟨[], ([], []), ([], []), ([], [])⟩ :=
  ⟨rfl, rfl, fun _ => rfl, rfl⟩

/-- C1 counterexample: `run_weekly` has no per-period gate.  On Sunday
2024-03-17 (ISO week 2024-W11) three ticks inside the weekly window each
perform a successful post: the first posts the 2024-W11 bucket and resets
the stored key to 2024-W12, after which the second and third ticks *both*
post again while the stored periodKey is `2024-W12` — more than one
successful post for kind Weekly within one periodKey, however the
periodKey of a post is read. -/
theorem c1_counterexample :
    iso_year_week ⟨2024, 3, 17, 23, 31⟩ = "2024-W11".toList
    ∧ iso_year_week ⟨2024, 3, 17, 23, 40⟩ = "2024-W11".toList
    ∧ (postsOf (run_weekly
        ⟨[], ("2024-W11".toList, [("Alice".toList, 5)]), ("2024-03".toList, []),
          ("2024".toList, [])⟩
        ⟨2024, 3, 17, 23, 31⟩ "x".toList true)).length = 1
    ∧ stateOf (run_weekly
        ⟨[], ("2024-W11".toList, [("Alice".toList, 5)]), ("2024-03".toList, []),
          ("2024".toList, [])⟩
        ⟨2024, 3, 17, 23, 31⟩ "x".toList true)
      = ⟨[], ("2024-W12".toList, []), ("2024-03".toList, []), ("2024".toList, [])⟩
    ∧ (postsOf (run_weekly
        ⟨[], ("2024-W12".toList, []), ("2024-03".toList, []), ("2024".toList, [])⟩
        ⟨2024, 3, 17, 23, 35⟩ "x".toList true)).length = 1
    ∧ stateOf (run_weekly
        ⟨[], ("2024-W12".toList, []), ("2024-03".toList, []), ("2024".toList, [])⟩
        ⟨2024, 3, 17, 23, 35⟩ "x".toList true)
      = ⟨[], ("2024-W12".toList, []), ("2024-03".toList, []), ("2024".toList, [])⟩
    ∧ (postsOf (run_weekly
        ⟨[], ("2024-W12".toList, []), ("2024-03".toList, []), ("2024".toList, [])⟩
        ⟨2024, 3, 17, 23, 40⟩ "x".toList true)).length = 1 := by
  decide

/-- C1 amended: only the Daily run is gated.  For Daily the claim holds:
once a daily tick has produced a post, its lock file exists, so any later
tick on the same civil date — whatever its state, fetched data or notify
outcome — exits at the lock check with no post.  (The weekly, monthly and
yearly runs post on every tick that passes their day and window checks, as
the counterexample shows.) -/
theorem c1_amended_daily_at_most_once (st1 st2 : TrackerState) (locks : List Str)
    (now1 now2 : DT) (rn1 rn2 : List Str) (mem1 mem2 : List (Str × Str))
    (ac1 ac2 : KillMap) (sp1 sp2 : Str) (ok1 ok2 : Bool)
    (hdate : dateIso now1 = dateIso now2)
    (hpost : postsOf (run_daily st1 locks now1 rn1 mem1 ac1 sp1 ok1).2 ≠ []) :
    (run_daily st2 (run_daily st1 locks now1 rn1 mem1 ac1 sp1 ok1).1
      now2 rn2 mem2 ac2 sp2 ok2).2 = .ok (st2, []) := by
  have hmem := run_daily_lock_of_posts st1 locks now1 rn1 mem1 ac1 sp1 ok1 hpost
  rw [hdate] at hmem
  rw [run_daily_locked st2 _ now2 rn2 mem2 ac2 sp2 ok2 hmem]

/-- Witness for C1's amended theorem: a posting daily tick at 23:45 on
2024-03-11, then a second tick at 23:50 the same day returns no post. -/
theorem c1_witness :
    postsOf (run_daily emptyState [] ⟨2024, 3, 11, 23, 45⟩ ["alice".toList] []
      [("Alice".toList, 5)] "x".toList true).2 ≠ []
    ∧ (run_daily emptyState
        (run_daily emptyState [] ⟨2024, 3, 11, 23, 45⟩ ["alice".toList] []
          [("Alice".toList, 5)] "x".toList true).1
        ⟨2024, 3, 11, 23, 50⟩ ["alice".toList] [] [("Alice".toList, 9)]
        "x".toList true).2 = .ok (emptyState, []) :=
  ⟨by decide,
   c1_amended_daily_at_most_once emptyState emptyState [] ⟨2024, 3, 11, 23, 45⟩
     ⟨2024, 3, 11, 23, 50⟩ ["alice".toList] ["alice".toList] [] []
     [("Alice".toList, 5)] [("Alice".toList, 9)] "x".toList "x".toList true true
     (by decide) (by decide)⟩

/-- C2 counterexample: a failed daily notify at 23:45 on 2024-07-02 leaves
the tick in error — but the lock file was created *before* the notify
attempt, so the retried tick at 23:52, same window and same periodKey with
a now-working webhook, exits at the lock check and does NOT post. -/
theorem c2_counterexample :
    (run_daily emptyState [] ⟨2024, 7, 2, 23, 45⟩ ["alice".toList] []
      [("Alice".toList, 5)] "x".toList false).2 = .error ()
    ∧ dailyLockName (dateIso ⟨2024, 7, 2, 23, 45⟩)
        ∈ (run_daily emptyState [] ⟨2024, 7, 2, 23, 45⟩ ["alice".toList] []
            [("Alice".toList, 5)] "x".toList false).1
    ∧ (run_daily emptyState
        (run_daily emptyState [] ⟨2024, 7, 2, 23, 45⟩ ["alice".toList] []
          [("Alice".toList, 5)] "x".toList false).1
        ⟨2024, 7, 2, 23, 52⟩ ["alice".toList] [] [("Alice".toList, 5)]
        "x".toList true).2 = .ok (emptyState, []) := by
  decide

/-- C2 amended: a failed notify aborts the tick before any save, so the
persisted markers and buckets are indeed unchanged; for the ungated
weekly run a retried tick in the same window can then still post.  For
the daily run, however, the advisory lock is acquired *before* the notify
attempt and persists, so a retried tick on the same date exits without
posting — the daily retry promised by the claim is impossible. -/
theorem c2_amended_failed_notify :
    (∀ (st : TrackerState) (now : DT) (sp : Str),
      isoweekday now.year now.month now.day = 7 →
      is_in_window now WEEKLY_START_MIN WEEKLY_END_MIN = true →
      run_weekly st now sp false = .error ()
      ∧ run_weekly st now sp true =
          .ok ({ st with weekly := (iso_year_week (nextDT now), []) },
               [format_ranking ("🗓️ Weekly Monstercount ".toList ++ st.weekly.1)
                  (sortDesc st.weekly.2) sp]))
    ∧ (∀ (st : TrackerState) (locks : List Str) (now : DT) (rn : List Str)
        (mem : List (Str × Str)) (ac : KillMap) (sp : Str),
      is_in_window now DAILY_START_MIN DAILY_END_MIN = true →
      dailyLockName (dateIso now) ∉ locks →
      ¬ st.last_daily_date = dateIso now →
      (run_daily st locks now rn mem ac sp false).2 = .error ()
      ∧ (run_daily st locks now rn mem ac sp false).1
          = locks ++ [dailyLockName (dateIso now)]
      ∧ ∀ (st2 : TrackerState) (now2 : DT) (rn2 : List Str)
          (mem2 : List (Str × Str)) (ac2 : KillMap) (sp2 : Str) (ok2 : Bool),
          dateIso now2 = dateIso now →
          (run_daily st2 ((run_daily st locks now rn mem ac sp false).1)
            now2 rn2 mem2 ac2 sp2 ok2).2 = .ok (st2, [])) := by
  constructor
  · intro st now sp h7 hw
    rw [run_weekly_open st now sp false h7 hw, run_weekly_open st now sp true h7 hw]
    exact ⟨rfl, rfl⟩
  · intro st locks now rn mem ac sp hw hl hm
    rw [run_daily_open st locks now rn mem ac sp false hw hl hm]
    refine ⟨rfl, rfl, ?_⟩
    intro st2 now2 rn2 mem2 ac2 sp2 ok2 hdate
    rw [run_daily_locked st2 _ now2 rn2 mem2 ac2 sp2 ok2 (by rw [hdate]; simp)]

/-- Witness for C2's amended theorem: a Sunday weekly tick with a failed
notify raises, and a failed daily tick on 2024-07-02 raises having taken
the lock, after which a same-day retry returns no post. -/
theorem c2_witness :
    run_weekly emptyState ⟨2024, 3, 17, 23, 35⟩ "x".toList false = .error ()
    ∧ (run_daily emptyState [] ⟨2024, 7, 2, 23, 45⟩ ["alice".toList] []
        [("Alice".toList, 5)] "x".toList false).2 = .error ()
    ∧ (run_daily emptyState
        (run_daily emptyState [] ⟨2024, 7, 2, 23, 45⟩ ["alice".toList] []
          [("Alice".toList, 5)] "x".toList false).1
        ⟨2024, 7, 2, 23, 52⟩ ["alice".toList] [] [("Alice".toList, 5)]
        "x".toList true).2 = .ok (emptyState, []) :=
  ⟨(c2_amended_failed_notify.1 emptyState ⟨2024, 3, 17, 23, 35⟩ "x".toList
      (by decide) (by decide)).1,
   (c2_amended_failed_notify.2 emptyState [] ⟨2024, 7, 2, 23, 45⟩
      ["alice".toList] [] [("Alice".toList, 5)] "x".toList
      (by decide) (by decide) (by decide)).1,
   (c2_amended_failed_notify.2 emptyState [] ⟨2024, 7, 2, 23, 45⟩
      ["alice".toList] [] [("Alice".toList, 5)] "x".toList
      (by decide) (by decide) (by decide)).2.2 emptyState ⟨2024, 7, 2, 23, 52⟩
      ["alice".toList] [] [("Alice".toList, 5)] "x".toList true (by decide)⟩

/-- C3 counterexample: `run_daily` aggregates only *after* the notify.  On
2024-05-20 a tick with a failing webhook raises before `aggregate_into`,
so no state containing the observation `("Bob", 7)` is ever produced; the
same-day retry exits at the pre-created lock with the state unchanged
(weekly bucket still empty) — the tick's observations are lost from the
weekly/monthly/yearly aggregates. -/
theorem c3_counterexample :
    (run_daily emptyState [] ⟨2024, 5, 20, 23, 42⟩ ["bob".toList] []
      [("Bob".toList, 7)] "y".toList false).2 = .error ()
    ∧ (run_daily emptyState
        (run_daily emptyState [] ⟨2024, 5, 20, 23, 42⟩ ["bob".toList] []
          [("Bob".toList, 7)] "y".toList false).1
        ⟨2024, 5, 20, 23, 50⟩ ["bob".toList] [] [("Bob".toList, 7)]
        "y".toList true).2 = .ok (emptyState, [])
    ∧ kmGet emptyState.weekly.2 "Bob".toList = 0 := by
  decide

/-- C3 amended: within a posting daily tick the accumulation merge into
the weekly/monthly/yearly buckets is recorded only when the notify
succeeds: on success the returned state is exactly `aggregate_into` of the
old state plus the advanced daily marker, while a failed notify aborts the
tick before the merge (nothing is saved), and the pre-acquired lock keeps
any same-day retry from recording those observations. -/
theorem c3_amended_merge_gated_on_notify (st : TrackerState) (locks : List Str)
    (now : DT) (rn : List Str) (mem : List (Str × Str)) (ac : KillMap) (sp : Str)
    (hw : is_in_window now DAILY_START_MIN DAILY_END_MIN = true)
    (hl : dailyLockName (dateIso now) ∉ locks)
    (hm : ¬ st.last_daily_date = dateIso now) :
    (run_daily st locks now rn mem ac sp false).2 = .error ()
    ∧ (run_daily st locks now rn mem ac sp true).2 =
        .ok ({ aggregate_into st (joinedCounts rn mem ac) now with
                 last_daily_date := dateIso now },
             [format_ranking "Daily Monstercount".toList
                (joinedCounts rn mem ac) sp]) := by
  rw [run_daily_open st locks now rn mem ac sp false hw hl hm,
    run_daily_open st locks now rn mem ac sp true hw hl hm]
  exact ⟨rfl, rfl⟩

/-- C9: the roster update is append-only and case-insensitively unique.
Every stored pair survives `add_missing`; the canonical-name list of the
result is the old list extended by exactly the reported additions; an added
name is a fetched name whose lowercase key was not already stored; the
resulting key set is the old key set united with the fetched lowercase
keys; the map invariant (key = lowercase of name, unique keys) is
preserved; and the saved roster file holds exactly the canonical names,
one per line, sorted case-insensitively, no two equal up to case. -/
theorem c9_roster_append_only_ci_unique (cur : List (Str × Str)) (ns : List Str)
    (hinv : rosterInv cur) :
    (∀ e ∈ cur, e ∈ (add_missing cur ns).1)
    ∧ (add_missing cur ns).1.map Prod.snd
        = cur.map Prod.snd ++ (add_missing cur ns).2
    ∧ (∀ n ∈ (add_missing cur ns).2, n ∈ ns ∧ lowerStr n ∉ cur.map Prod.fst)
    ∧ (∀ k, k ∈ (add_missing cur ns).1.map Prod.fst ↔
        k ∈ cur.map Prod.fst ∨ k ∈ ns.map lowerStr)
    ∧ rosterInv (add_missing cur ns).1
    ∧ List.Perm (save_members (add_missing cur ns).1)
        ((add_missing cur ns).1.map Prod.snd)
    ∧ (save_members (add_missing cur ns).1).Pairwise
        (fun a b => lexLe (lowerStr a) (lowerStr b) = true)
    ∧ (save_members (add_missing cur ns).1).Pairwise
        (fun a b => lowerStr a ≠ lowerStr b) := by
  have hinv' := add_missing_inv ns cur hinv
  refine ⟨fun e he => add_missing_keeps ns cur e he,
    add_missing_snd ns cur,
    fun n hn => add_missing_added ns cur n hn,
    fun k => add_missing_keys ns cur k,
    hinv', ?_, ?_, ?_⟩
  · exact perm_insSort _ _
  · have h := pairwise_insSort (fun a b : Str => lexLe (lowerStr a) (lowerStr b))
      (fun a b hab => lexLe_total _ _ hab)
      (fun a b c h1 h2 => lexLe_trans _ _ _ h1 h2)
      ((add_missing cur ns).1.map Prod.snd)
    exact h
  · have hperm : List.Perm (save_members (add_missing cur ns).1)
        ((add_missing cur ns).1.map Prod.snd) := perm_insSort _ _
    exact (hperm.pairwise_iff (fun h he => h he.symm)).mpr
      (roster_snd_pairwise _ hinv')

/-- Rewriting `format_trunc` with the body-line computation discharged. -/
theorem format_trunc_eq (h s msg : Str) (bl : List Str)
    (hbl : (if hasNlNl msg then (splitNl msg).drop 2 else splitNl msg) = bl) :
    format_trunc h s msg
      = compose h s (bsLoop (candBody bl) (frFits h s bl)
          (bl.length + 2) 0 (bl.length + 1) KEINE) := by
  simp only [format_trunc]
  rw [hbl]

/-- C5 amended: when the composed message exceeds `DISCORD_SAFE_LIMIT`
(and title, flavor text and names are single-line, the entry list is
nonempty, and the header/flavor/placeholder base itself fits — the proviso
the counterexample forces), the renderer outputs the header, the flavor
text and the longest prefix of whole body lines whose composed message
fits (`body_lines` starts with the blank line of the composition, so zero
fitting entry lines yield an empty body, not the placeholder), and the
output never exceeds the limit. -/
theorem c5_amended_truncation (title : Str) (entries : KillMap) (spruch : Str)
    (htitle : nlc ∉ title) (hspruch : nlc ∉ spruch)
    (hnames : ∀ e ∈ entries, nlc ∉ e.1) (hne : entries ≠ [])
    (hlong : ¬ (format_full title entries spruch).length ≤ DISCORD_SAFE_LIMIT)
    (hbase : (headerOf title).length + spruch.length + 3 + KEINE.length
      ≤ DISCORD_SAFE_LIMIT) :
    ∃ k, k ≤ (mkLines entries).length + 1
      ∧ frFits (headerOf title) spruch ([] :: mkLines entries) k = true
      ∧ (∀ m, k < m → m ≤ (mkLines entries).length + 1 →
          frFits (headerOf title) spruch ([] :: mkLines entries) m = false)
      ∧ format_ranking title entries spruch
          = compose (headerOf title) spruch (candBody ([] :: mkLines entries) k)
      ∧ (format_ranking title entries spruch).length ≤ DISCORD_SAFE_LIMIT := by
  set H := headerOf title with hHdef
  set L := mkLines entries with hLdef
  have hH : nlc ∉ H := headerOf_noNl title htitle
  have hLno : ∀ l ∈ L, nlc ∉ l := mkLines_noNl entries hnames
  have hLne : L ≠ [] := mkLines_ne_nil entries hne
  set bls : List Str := [] :: L with hblsdef
  set N : Nat := bls.length with hNdef
  have hNL : N = L.length + 1 := by rw [hNdef, hblsdef]; rfl
  have hfull : format_full title entries spruch = compose H spruch (joinNl L) := by
    rw [format_full, if_neg hne]
  have hsplit : splitNl (compose H spruch (joinNl L)) = H :: spruch :: [] :: L := by
    have hform : compose H spruch (joinNl L)
        = H ++ nlc :: (spruch ++ nlc :: nlc :: joinNl L) := by
      simp [compose]
    rw [hform, splitNl_append_nl H _ hH, splitNl_append_nl spruch _ hspruch]
    have h0 : splitNl (nlc :: joinNl L) = [] :: splitNl (joinNl L) := by
      simpa using splitNl_append_nl [] (joinNl L) (by simp)
    rw [h0, splitNl_joinNl L hLne hLno]
  have hhas : hasNlNl (compose H spruch (joinNl L)) = true := by
    have hassoc : compose H spruch (joinNl L)
        = (H ++ nlc :: spruch) ++ nlc :: nlc :: joinNl L := by
      simp [compose]
    rw [hassoc]
    exact hasNlNl_append _ _
  have htr0 : format_ranking title entries spruch
      = format_trunc H spruch (compose H spruch (joinNl L)) := by
    show (if (format_full title entries spruch).length ≤ DISCORD_SAFE_LIMIT
          then format_full title entries spruch
          else format_trunc (headerOf title) spruch
            (format_full title entries spruch))
        = format_trunc H spruch (compose H spruch (joinNl L))
    rw [if_neg hlong, hfull]
  have hbl : (if hasNlNl (compose H spruch (joinNl L)) then
        (splitNl (compose H spruch (joinNl L))).drop 2
      else splitNl (compose H spruch (joinNl L))) = bls := by
    rw [if_pos hhas, hsplit]
    rfl
  have htr : format_ranking title entries spruch
      = compose H spruch (bsLoop (candBody bls) (frFits H spruch bls)
          (N + 2) 0 (N + 1) KEINE) := by
    rw [htr0, format_trunc_eq H spruch _ bls hbl]
  -- candidate lengths
  have hc0 : candBody bls 0 = KEINE := rfl
  have hc1 : candBody bls 1 = [] := by
    unfold candBody
    rw [if_neg one_ne_zero]
    rfl
  have hF0 : frFits H spruch bls 0 = true := by
    unfold frFits
    rw [hc0, len_compose]
    exact decide_eq_true hbase
  have hF1 : frFits H spruch bls 1 = true := by
    unfold frFits
    rw [hc1, len_compose]
    refine decide_eq_true ?_
    have h20 : KEINE.length = 20 := rfl
    simp only [List.length_nil]
    omega
  have hFmono : ∀ m, 1 ≤ m →
      (compose H spruch (candBody bls m)).length
        ≤ (compose H spruch (candBody bls (m + 1))).length := by
    intro m hm
    have h1 : candBody bls m = joinNl (bls.take m) := by
      unfold candBody
      rw [if_neg (by omega)]
    have h2 : candBody bls (m + 1) = joinNl (bls.take (m + 1)) := by
      unfold candBody
      rw [if_neg (by omega)]
    rw [h1, h2, len_compose, len_compose]
    have := joinNl_take_mono bls m
    omega
  have hN1 : 1 ≤ N := by omega
  set b := Nat.findGreatest (fun m => frFits H spruch bls m = true) N with hbdef
  have hb1 : 1 ≤ b := by
    rw [hbdef]
    exact Nat.le_findGreatest hN1 hF1
  have hbN : b ≤ N := by
    rw [hbdef]
    exact Nat.findGreatest_le N
  have hPb : frFits H spruch bls b = true :=
    Nat.findGreatest_of_ne_zero hbdef.symm (by omega)
  have hfit : ∀ m, m ≤ b → frFits H spruch bls m = true := by
    intro m hm
    rcases Nat.eq_zero_or_pos m with h0 | hpos
    · rw [h0]; exact hF0
    · have hchain := mono_chain
        (fun m => (compose H spruch (candBody bls m)).length) hFmono m b hpos hm
      have hb' := hPb
      unfold frFits at hb' ⊢
      rw [decide_eq_true_eq] at hb'
      exact decide_eq_true (le_trans hchain hb')
  have hnot : ∀ m, b < m → m ≤ N → frFits H spruch bls m = false := by
    intro m h1 h2
    rw [hbdef] at h1
    exact Bool.eq_false_iff.mpr (Nat.findGreatest_is_greatest h1 h2)
  have hloop : bsLoop (candBody bls) (frFits H spruch bls)
      (N + 2) 0 (N + 1) KEINE = candBody bls b :=
    bsLoop_eq (candBody bls) (frFits H spruch bls) b N hfit hnot
      (N + 2) 0 (N + 1) KEINE (by omega) (by omega) (by omega) (by omega)
      (fun h => absurd h (by omega))
  have hout : format_ranking title entries spruch = compose H spruch (candBody bls b) := by
    rw [htr, hloop]
  refine ⟨b, by omega, hPb, ?_, hout, ?_⟩
  · intro m h1 h2
    exact hnot m h1 (by omega)
  · rw [hout]
    have hb' := hPb
    unfold frFits at hb'
    rwa [decide_eq_true_eq] at hb'

/-- C5 counterexample: with an empty entry list and a 1900-character
flavor text the composed message (1967 characters) exceeds the limit, no
body-line prefix candidate fits, the binary search keeps its placeholder
default, and the rendered output is the 1967-character
header/flavor/placeholder composition — exceeding `maxCharacters`. -/
theorem c5_counterexample :
    DISCORD_SAFE_LIMIT <
      (format_ranking "Daily Monstercount".toList []
        (List.replicate 1900 'a')).length := by
  set sp : Str := List.replicate 1900 'a' with hsp
  set H : Str := headerOf "Daily Monstercount".toList with hHs
  have hspno : nlc ∉ sp := by
    rw [hsp]
    intro h
    exact absurd (List.eq_of_mem_replicate h) (by decide)
  have hsplen : sp.length = 1900 := by rw [hsp]; exact List.length_replicate 1900 'a'
  have hHno : nlc ∉ H := by rw [hHs]; exact headerOf_noNl _ (by decide)
  have hHlen : H.length = 44 := by rw [hHs]; rfl
  have hK : KEINE.length = 20 := rfl
  have hKno : nlc ∉ KEINE := by decide
  have hfull : format_full "Daily Monstercount".toList [] sp = compose H sp KEINE := by
    rw [format_full, if_pos rfl, hHs]
  have hmlen : (compose H sp KEINE).length = 1967 := by
    rw [len_compose, hHlen, hsplen, hK]
  have hlong : ¬ (format_full "Daily Monstercount".toList [] sp).length
      ≤ DISCORD_SAFE_LIMIT := by
    rw [hfull, hmlen]
    decide
  have htr0 : format_ranking "Daily Monstercount".toList [] sp
      = format_trunc H sp (compose H sp KEINE) := by
    show (if (format_full "Daily Monstercount".toList [] sp).length
            ≤ DISCORD_SAFE_LIMIT
          then format_full "Daily Monstercount".toList [] sp
          else format_trunc (headerOf "Daily Monstercount".toList) sp
            (format_full "Daily Monstercount".toList [] sp))
        = format_trunc H sp (compose H sp KEINE)
    rw [if_neg hlong, hfull, hHs]
  have hsplit : splitNl (compose H sp KEINE) = [H, sp, [], KEINE] := by
    have hform : compose H sp KEINE = H ++ nlc :: (sp ++ nlc :: nlc :: KEINE) := by
      simp [compose]
    rw [hform, splitNl_append_nl H _ hHno, splitNl_append_nl sp _ hspno]
    have h0 : splitNl (nlc :: KEINE) = [] :: splitNl KEINE := by
      simpa using splitNl_append_nl [] KEINE (by simp)
    rw [h0, splitNl_noNl KEINE hKno]
  have hhas : hasNlNl (compose H sp KEINE) = true := by
    have hform : compose H sp KEINE = (H ++ nlc :: sp) ++ nlc :: nlc :: KEINE := by
      simp [compose]
    rw [hform]
    exact hasNlNl_append _ _
  have hbl : (if hasNlNl (compose H sp KEINE) then
        (splitNl (compose H sp KEINE)).drop 2
      else splitNl (compose H sp KEINE)) = [([] : Str), KEINE] := by
    rw [if_pos hhas, hsplit]
    rfl
  have htr : format_ranking "Daily Monstercount".toList [] sp
      = compose H sp (bsLoop (candBody [[], KEINE]) (frFits H sp [[], KEINE])
          4 0 3 KEINE) := by
    rw [htr0, format_trunc_eq H sp _ [[], KEINE] hbl]
    rfl
  have hf1 : frFits H sp [[], KEINE] 1 = false := by
    have hc : candBody [[], KEINE] 1 = [] := by
      unfold candBody
      rw [if_neg one_ne_zero]
      rfl
    unfold frFits
    rw [hc, len_compose, hHlen, hsplen]
    decide
  have hf0 : frFits H sp [[], KEINE] 0 = false := by
    unfold frFits
    rw [show candBody [[], KEINE] 0 = KEINE from rfl, len_compose, hHlen, hsplen, hK]
    decide
  have e1 : bsLoop (candBody [[], KEINE]) (frFits H sp [[], KEINE]) 4 0 3 KEINE
      = bsLoop (candBody [[], KEINE]) (frFits H sp [[], KEINE]) 3 0 1 KEINE :=
    bsLoop_step_false _ _ 3 0 3 KEINE (by omega) hf1
  have e2 : bsLoop (candBody [[], KEINE]) (frFits H sp [[], KEINE]) 3 0 1 KEINE
      = bsLoop (candBody [[], KEINE]) (frFits H sp [[], KEINE]) 2 0 0 KEINE :=
    bsLoop_step_false _ _ 2 0 1 KEINE (by omega) hf0
  have e3 : bsLoop (candBody [[], KEINE]) (frFits H sp [[], KEINE]) 2 0 0 KEINE
      = KEINE :=
    bsLoop_stop _ _ 1 0 0 KEINE (by omega)
  rw [htr, e1, e2, e3, hmlen]
  decide

/-- Witness for C5's amended theorem: two entries with 950-character names
give a 1982-character message; the theorem yields a fitting prefix output
within the limit. -/
theorem c5_witness :
    ¬ (format_full "T".toList
        [(List.replicate 950 'a', 2), (List.replicate 950 'b', 1)]
        "s".toList).length ≤ DISCORD_SAFE_LIMIT
    ∧ ∃ k, k ≤ (mkLines
          [(List.replicate 950 'a', 2), (List.replicate 950 'b', 1)]).length + 1
      ∧ frFits (headerOf "T".toList) "s".toList
          ([] :: mkLines
            [(List.replicate 950 'a', 2), (List.replicate 950 'b', 1)]) k = true
      ∧ (∀ m, k < m → m ≤ (mkLines
            [(List.replicate 950 'a', 2), (List.replicate 950 'b', 1)]).length + 1 →
          frFits (headerOf "T".toList) "s".toList
            ([] :: mkLines
              [(List.replicate 950 'a', 2), (List.replicate 950 'b', 1)]) m = false)
      ∧ format_ranking "T".toList
          [(List.replicate 950 'a', 2), (List.replicate 950 'b', 1)] "s".toList
          = compose (headerOf "T".toList) "s".toList
              (candBody ([] :: mkLines
                [(List.replicate 950 'a', 2), (List.replicate 950 'b', 1)]) k)
      ∧ (format_ranking "T".toList
          [(List.replicate 950 'a', 2), (List.replicate 950 'b', 1)]
          "s".toList).length ≤ DISCORD_SAFE_LIMIT := by
  have hrepno : ∀ (n : Nat) (c : Char), ¬ c = nlc → nlc ∉ List.replicate n c :=
    fun n c hc h => hc (List.eq_of_mem_replicate h).symm
  have hnames : ∀ e ∈ [((List.replicate 950 'a' : Str), 2),
      ((List.replicate 950 'b' : Str), 1)], nlc ∉ e.1 := by
    intro e he
    simp only [List.mem_cons, List.not_mem_nil, or_false] at he
    rcases he with rfl | rfl
    · exact hrepno 950 'a' (by decide)
    · exact hrepno 950 'b' (by decide)
  have h1 : natToChars 1 = ['1'] := rfl
  have h2 : natToChars 2 = ['2'] := rfl
  have hL1 : (rankLine 1 (List.replicate 950 'a') 2).length = 975 := by
    unfold rankLine
    rw [h1, h2]
    simp only [List.length_append, List.length_cons, List.length_replicate,
      List.length_nil]
    decide
  have hL2 : (rankLine 2 (List.replicate 950 'b') 1).length = 975 := by
    unfold rankLine
    rw [h1, h2]
    simp only [List.length_append, List.length_cons, List.length_replicate,
      List.length_nil]
    decide
  have hmk : mkLines [((List.replicate 950 'a' : Str), 2),
      ((List.replicate 950 'b' : Str), 1)]
      = [rankLine 1 (List.replicate 950 'a') 2,
         rankLine 2 (List.replicate 950 'b') 1] := rfl
  have hjoin : (joinNl [rankLine 1 (List.replicate 950 'a') 2,
      rankLine 2 (List.replicate 950 'b') 1]).length = 1951 := by
    show (rankLine 1 (List.replicate 950 'a') 2
      ++ nlc :: rankLine 2 (List.replicate 950 'b') 1).length = 1951
    simp only [List.length_append, List.length_cons]
    omega
  have hT : (headerOf "T".toList).length = 27 := rfl
  have hlong : ¬ (format_full "T".toList
      [(List.replicate 950 'a', 2), (List.replicate 950 'b', 1)]
      "s".toList).length ≤ DISCORD_SAFE_LIMIT := by
    rw [format_full, if_neg (List.cons_ne_nil _ _), hmk, len_compose, hT, hjoin]
    decide
  exact ⟨hlong,
    c5_amended_truncation "T".toList
      [(List.replicate 950 'a', 2), (List.replicate 950 'b', 1)] "s".toList
      (by decide) (by decide) hnames (List.cons_ne_nil _ _) hlong (by decide)⟩

/-- Witness for C9: the roster `{alice -> Alice}` updated with the fetched
names `Bob, ALICE, zed` adds exactly `Bob` and `zed`. -/
theorem c9_witness :
    (add_missing [("alice".toList, "Alice".toList)]
      ["Bob".toList, "ALICE".toList, "zed".toList]).2
      = ["Bob".toList, "zed".toList]
    ∧ (add_missing [("alice".toList, "Alice".toList)]
        ["Bob".toList, "ALICE".toList, "zed".toList]).1.map Prod.snd
      = [("alice".toList, "Alice".toList)].map Prod.snd
        ++ (add_missing [("alice".toList, "Alice".toList)]
            ["Bob".toList, "ALICE".toList, "zed".toList]).2 :=
  ⟨by decide,
   (c9_roster_append_only_ci_unique [("alice".toList, "Alice".toList)]
     ["Bob".toList, "ALICE".toList, "zed".toList]
     (by constructor <;> decide)).2.1⟩

/-- Witness for C3's amended theorem on 2024-05-20 at 23:42. -/
theorem c3_witness :
    (run_daily emptyState [] ⟨2024, 5, 20, 23, 42⟩ ["bob".toList] []
      [("Bob".toList, 7)] "y".toList false).2 = .error ()
    ∧ (run_daily emptyState [] ⟨2024, 5, 20, 23, 42⟩ ["bob".toList] []
        [("Bob".toList, 7)] "y".toList true).2 =
        .ok ({ aggregate_into emptyState
                 (joinedCounts ["bob".toList] [] [("Bob".toList, 7)])
                 ⟨2024, 5, 20, 23, 42⟩ with
                 last_daily_date := dateIso ⟨2024, 5, 20, 23, 42⟩ },
             [format_ranking "Daily Monstercount".toList
                (joinedCounts ["bob".toList] [] [("Bob".toList, 7)])
                "y".toList]) :=
  c3_amended_merge_gated_on_notify emptyState [] ⟨2024, 5, 20, 23, 42⟩
    ["bob".toList] [] [("Bob".toList, 7)] "y".toList
    (by decide) (by decide) (by decide)

end Tracker
